import Mathlib

/-!
Verification of the Assistly RAG pipeline (`app/rag_pipeline.py`) and the
conversation memory manager (`app/memory_manager.py`).

The Python code is shallowly embedded: scores are rationals, Python dicts
are insertion-ordered association lists, and Python's stable
`sorted(..., reverse=True)` is embedded as a stable descending insertion
sort (`sortDescBy`).  External services (the OpenAI chat model, the Qdrant
vector backend, the BM25 scoring function of `rank_bm25`) are parameters of
the embedded functions.
-/

/-- A retrieved chunk, corresponding to the result dictionaries built in
`rag_pipeline.py`.  `normalized_score`, `final_score` are `none` when the
corresponding dictionary key is absent; `search_types = []` models an
absent `search_types` key. -/
structure SearchResult where
  text : String
  source_url : String
  title : String
  doc_type : String
  score : ℚ
  normalized_score : Option ℚ := none
  final_score : Option ℚ := none
  search_types : List String := []
  search_type : String := ""
deriving Repr, DecidableEq

instance : Inhabited SearchResult :=
  ⟨{ text := "", source_url := "", title := "", doc_type := "", score := 0 }⟩

/-! ### A stable descending sort, embedding Python's `sorted(..., key=key, reverse=True)`

Python's `sorted` is a stable sort; with `reverse=True` it orders by
strictly decreasing key and keeps the original relative order of elements
with equal keys.  `sortDescBy` is a stable insertion sort with exactly that
behaviour. -/

/-- Insert `x` into a descending-sorted list, after all elements of
strictly greater key and before all elements of smaller-or-equal key. -/
def insertDesc (key : α → ℚ) (x : α) : List α → List α
  | [] => [x]
  | y :: ys => if key x < key y then y :: insertDesc key x ys else x :: y :: ys

/-- Stable sort by strictly decreasing key; ties keep their original order. -/
def sortDescBy (key : α → ℚ) (l : List α) : List α :=
  l.foldr (insertDesc key) []

/-- The ordering that a stable descending sort establishes, given that the
input was ordered by `S`: later elements have smaller keys, or equal keys
and were already `S`-after. -/
def stableRel (key : α → ℚ) (S : α → α → Prop) (a b : α) : Prop :=
  key b < key a ∨ (key b ≤ key a ∧ S a b)

theorem insertDesc_perm (key : α → ℚ) (x : α) :
    ∀ l : List α, List.Perm (insertDesc key x l) (x :: l) := by
  intro l
  induction l with
  | nil => simp [insertDesc]
  | cons y ys ih =>
    unfold insertDesc
    split
    · exact (ih.cons y).trans (List.Perm.swap x y ys)
    · exact List.Perm.refl _

theorem sortDescBy_perm (key : α → ℚ) (l : List α) : List.Perm (sortDescBy key l) l := by
  induction l with
  | nil => simp [sortDescBy]
  | cons x xs ih =>
    have h1 : sortDescBy key (x :: xs) = insertDesc key x (sortDescBy key xs) := rfl
    rw [h1]
    exact (insertDesc_perm key x (sortDescBy key xs)).trans (ih.cons x)

theorem mem_sortDescBy {key : α → ℚ} {l : List α} {a : α} :
    a ∈ sortDescBy key l ↔ a ∈ l :=
  (sortDescBy_perm key l).mem_iff

theorem length_sortDescBy (key : α → ℚ) (l : List α) :
    (sortDescBy key l).length = l.length :=
  (sortDescBy_perm key l).length_eq

theorem stableRel_key_le {key : α → ℚ} {S : α → α → Prop} {a b : α}
    (h : stableRel key S a b) : key b ≤ key a := by
  rcases h with h | h
  · exact le_of_lt h
  · exact h.1

theorem pairwise_insertDesc {key : α → ℚ} {S : α → α → Prop} {x : α} {l : List α}
    (hx : ∀ y ∈ l, S x y) (hl : l.Pairwise (stableRel key S)) :
    (insertDesc key x l).Pairwise (stableRel key S) := by
  induction l with
  | nil => simp [insertDesc, stableRel]
  | cons y ys ih =>
    rw [List.pairwise_cons] at hl
    unfold insertDesc
    split
    · rename_i hlt
      refine List.pairwise_cons.mpr ⟨?_, ?_⟩
      · intro z hz
        rcases List.mem_cons.mp ((insertDesc_perm key x ys).mem_iff.mp hz) with hz | hz
        · subst hz
          exact Or.inl hlt
        · exact hl.1 z hz
      · exact ih (fun z hz => hx z (List.mem_cons_of_mem y hz)) hl.2
    · rename_i hge
      push_neg at hge
      refine List.pairwise_cons.mpr ⟨?_, List.pairwise_cons.mpr hl⟩
      intro z hz
      rcases List.mem_cons.mp hz with hz | hz
      · subst hz
        exact Or.inr ⟨hge, hx z (List.mem_cons_self _ _)⟩
      · have hzy : key z ≤ key y := stableRel_key_le (hl.1 z hz)
        exact Or.inr ⟨le_trans hzy hge, hx z (List.mem_cons_of_mem y hz)⟩

/-- Stability of `sortDescBy` : if the input is ordered by `S`, the output
is ordered by decreasing key, with ties still ordered by `S`. -/
theorem pairwise_sortDescBy {key : α → ℚ} {S : α → α → Prop} {l : List α}
    (hS : l.Pairwise S) :
    (sortDescBy key l).Pairwise (stableRel key S) := by
  induction l with
  | nil => simp [sortDescBy]
  | cons x xs ih =>
    rw [List.pairwise_cons] at hS
    have h1 : sortDescBy key (x :: xs) = insertDesc key x (sortDescBy key xs) := rfl
    rw [h1]
    exact pairwise_insertDesc
      (fun y hy => hS.1 y (mem_sortDescBy.mp hy)) (ih hS.2)

/-- A list already in non-increasing key order is left unchanged by
`sortDescBy` (stability at work: equal keys keep their order). -/
theorem sortDescBy_of_sorted {key : α → ℚ} {l : List α}
    (h : l.Pairwise (fun a b => key b ≤ key a)) : sortDescBy key l = l := by
  induction l with
  | nil => rfl
  | cons x xs ih =>
    rw [List.pairwise_cons] at h
    have h1 : sortDescBy key (x :: xs) = insertDesc key x (sortDescBy key xs) := rfl
    rw [h1, ih h.2]
    cases xs with
    | nil => rfl
    | cons y ys =>
      unfold insertDesc
      rw [if_neg (not_lt.mpr (h.1 y (List.mem_cons_self _ _)))]

/-! ### Insertion-ordered dictionaries

Python `dict`s preserve insertion order and have unique keys.  They are
embedded as association lists: lookup returns the first binding, update
rewrites the binding in place, and `dinsert` (Python `d[k] = v`) rewrites
an existing binding or appends a new one. -/

/-- First binding of `k`, as Python `d[k]` / `k in d`. -/
def dlookup [DecidableEq κ] (k : κ) : List (κ × β) → Option β
  | [] => none
  | p :: rest => if p.1 = k then some p.2 else dlookup k rest

/-- Rewrite the value bound to `k` in place (Python `d[k] = f(d[k])`). -/
def dupdate [DecidableEq κ] (k : κ) (f : β → β) (l : List (κ × β)) : List (κ × β) :=
  l.map (fun p => if p.1 = k then (p.1, f p.2) else p)

/-- Python `d[k] = v`: overwrite if present, else append at the end. -/
def dinsert [DecidableEq κ] (k : κ) (v : β) (l : List (κ × β)) : List (κ × β) :=
  if (dlookup k l).isSome then dupdate k (fun _ => v) l else l ++ [(k, v)]

/-! ### Configuration constants of `rag_pipeline.py` -/

def TOP_K : ℕ := 5
def ENABLE_QUERY_ENHANCEMENT : Bool := false
def ENABLE_HYBRID_SEARCH : Bool := true
def HYBRID_VECTOR_WEIGHT : ℚ := 1
def HYBRID_KEYWORD_WEIGHT : ℚ := 0

/-! ### `AtlanRAG.keyword_search`

The BM25 scores returned by `self.bm25_index.get_scores(query_tokens)` are
an arbitrary list of rationals `scores` (one per indexed document); the
claims quantify over every built index and query, i.e. over every such
list.  `sorted(range(len(scores)), key=lambda i: scores[i], reverse=True)`
is the stable descending sort of the index list. -/

/-- Metadata stored per document in `self.document_metadata`. -/
structure DocMeta where
  source_url : String
  title : String
  doc_type : String
deriving Repr, DecidableEq

/-- The indices that `keyword_search` keeps: top-`top_k` indices by
descending score (ties by original index order), then only those with
strictly positive score. -/
def keyword_search_hits (scores : List ℚ) (top_k : ℕ) : List ℕ :=
  ((sortDescBy (fun i => scores.getD i 0) (List.range scores.length)).take top_k).filter
    (fun idx => decide (0 < scores.getD idx 0))

/-- `AtlanRAG.keyword_search`, lines 142-170 of `rag_pipeline.py`. -/
def keyword_search (document_texts : List String) (document_metadata : List DocMeta)
    (scores : List ℚ) (top_k : ℕ) : List SearchResult :=
  (keyword_search_hits scores top_k).map (fun idx =>
    { text := document_texts.getD idx "",
      source_url := (document_metadata.getD idx ⟨"", "", ""⟩).source_url,
      title := (document_metadata.getD idx ⟨"", "", ""⟩).title,
      doc_type := (document_metadata.getD idx ⟨"", "", ""⟩).doc_type,
      score := scores.getD idx 0,
      search_type := "keyword" })

/-! ### `AtlanRAG.merge_and_rerank` and its inner `normalize_scores` -/

/-- Python `max(r["score"] for r in results)` on a non-empty list
(`0` is never used: callers guard against the empty list). -/
def foldMaxScore : List SearchResult → ℚ
  | [] => 0
  | r :: rs => (rs.map (fun x => x.score)).foldl max r.score

/-- Python `min(r["score"] for r in results)` on a non-empty list. -/
def foldMinScore : List SearchResult → ℚ
  | [] => 0
  | r :: rs => (rs.map (fun x => x.score)).foldl min r.score

/-- Inner helper `normalize_scores`, lines 178-192: empty or constant-score
lists are returned unchanged, otherwise every result receives a
`normalized_score` of `(score - min) / (max - min)`. -/
def normalize_scores (results : List SearchResult) : List SearchResult :=
  match results with
  | [] => results
  | _ :: _ =>
    let max_score := foldMaxScore results
    let min_score := foldMinScore results
    if max_score = min_score then results
    else results.map (fun r =>
      { r with normalized_score := some ((r.score - min_score) / (max_score - min_score)) })

/-- Python `result.get("normalized_score", result["score"])`. -/
def eff (r : SearchResult) : ℚ := r.normalized_score.getD r.score

/-- Python `result["text"][:100]`, the deduplication key (Python slices by
character, hence `List Char`). -/
def text_key (r : SearchResult) : List Char := r.text.toList.take 100

/-- One iteration of the per-channel loops of `merge_and_rerank`
(lines 202-223): first occurrence of a key is appended with
`final_score = contribution * weight`, later occurrences add their
contribution and append their channel tag. -/
def addChannelStep (weight : ℚ) (tag : String)
    (acc : List (List Char × SearchResult)) (r : SearchResult) :
    List (List Char × SearchResult) :=
  match dlookup (text_key r) acc with
  | none =>
    acc ++ [(text_key r, { r with final_score := some (eff r * weight), search_types := [tag] })]
  | some old =>
    dupdate (text_key r) (fun _ =>
      { old with final_score := some (old.final_score.getD 0 + eff r * weight),
                 search_types := old.search_types ++ [tag] }) acc

/-- The whole per-channel loop of `merge_and_rerank`. -/
def addChannel (weight : ℚ) (tag : String)
    (acc : List (List Char × SearchResult)) : List SearchResult → List (List Char × SearchResult)
  | [] => acc
  | r :: rest => addChannel weight tag (addChannelStep weight tag acc r) rest

/-- The `combined_results` dict of `merge_and_rerank` (lines 198-223):
normalized vector results under weight `HYBRID_VECTOR_WEIGHT`, then
normalized keyword results under weight `HYBRID_KEYWORD_WEIGHT`. -/
def mergedDict (vector_results keyword_results : List SearchResult) :
    List (List Char × SearchResult) :=
  addChannel HYBRID_KEYWORD_WEIGHT "keyword"
    (addChannel HYBRID_VECTOR_WEIGHT "vector" [] (normalize_scores vector_results))
    (normalize_scores keyword_results)

/-- `AtlanRAG.merge_and_rerank`, lines 172-228: build `combined_results`,
sort its values by descending `final_score` (Python's stable `sorted`),
and keep the first `TOP_K`. -/
def merge_and_rerank (vector_results keyword_results : List SearchResult) : List SearchResult :=
  if !ENABLE_HYBRID_SEARCH then vector_results
  else
    (sortDescBy (fun r => r.final_score.getD 0)
      ((mergedDict vector_results keyword_results).map (fun p => p.2))).take TOP_K

/-! ### `AtlanRAG.search_documents`, `extract_unique_sources`,
`generate_rag_response`, `answer_question`

The vector backend and the BM25 index are external; the two channels'
result lists are parameters.  The OpenAI chat completion is a parameter
`llm : String → String` from the prompt to the model's reply. -/

/-- `AtlanRAG.search_documents`, lines 245-264 (query enhancement is
disabled in the configuration and returns the query unchanged). -/
def search_documents (vector_results keyword_results : List SearchResult) : List SearchResult :=
  if ENABLE_HYBRID_SEARCH && !keyword_results.isEmpty then
    merge_and_rerank vector_results keyword_results
  else vector_results

/-- Inner loop of `extract_unique_sources` with the `seen_urls` set. -/
def extractSourcesAux (seen : List String) : List SearchResult → List String
  | [] => []
  | r :: rest =>
    if r.source_url ≠ "" ∧ r.source_url ∉ seen then
      r.source_url :: extractSourcesAux (r.source_url :: seen) rest
    else extractSourcesAux seen rest

/-- `AtlanRAG.extract_unique_sources`, lines 305-316. -/
def extract_unique_sources (search_results : List SearchResult) : List String :=
  extractSourcesAux [] search_results

/-- The fixed fallback of `generate_rag_response` (line 321). -/
def NO_RESULTS_RESPONSE : String :=
  "I couldn\x27t find relevant information in the Atlan documentation to answer your question."

/-- The `[Found via: ...]` annotation of one context block (lines 326-336). -/
def searchInfo (doc : SearchResult) : String :=
  if doc.search_types ≠ [] then
    " [Found via: " ++ String.intercalate ", " doc.search_types ++ "]"
  else if doc.search_type ≠ "" then " [Found via: " ++ doc.search_type ++ "]"
  else ""

/-- One `Context i:` block of the prompt (line 336). -/
def contextPart (i : ℕ) (doc : SearchResult) : String :=
  "Context " ++ toString i ++ ":\nSource: " ++ doc.title ++ searchInfo doc
    ++ "\nContent: " ++ doc.text ++ "\n"

/-- The user prompt assembled by `generate_rag_response` (lines 347-356). -/
def ragPrompt (query : String) (context_docs : List SearchResult) : String :=
  let context := String.intercalate "\n"
    ((context_docs.enumFrom 1).map (fun p => contextPart p.1 p.2))
  "You are a helpful assistant that answers questions about Atlan" ++ context ++ query

/-- `AtlanRAG.generate_rag_response`, lines 318-377: an empty context list
short-circuits to the fixed fallback, otherwise the language model `llm`
is consulted on the assembled prompt. -/
def generate_rag_response (llm : String → String) (query : String)
    (context_docs : List SearchResult) : String :=
  if context_docs.isEmpty then NO_RESULTS_RESPONSE
  else llm (ragPrompt query context_docs)

/-- The search-method accumulation loop of `answer_question`
(lines 388-395). -/
def collect_search_methods (rs : List SearchResult) : List String :=
  rs.foldl (fun acc r =>
    if r.search_types ≠ [] then acc ++ r.search_types
    else if r.search_type ≠ "" then acc ++ [r.search_type]
    else acc) []

/-- The dictionary returned by `answer_question` (lines 400-408).
`search_methods_used` is Python's `list(set(...))`, whose order is
unspecified; it is embedded as first-occurrence deduplication. -/
structure RAGAnswer where
  answer : String
  sources : List String
  retrieved_chunks : ℕ
  search_methods_used : List String
  hybrid_search_enabled : Bool
  query_enhancement_enabled : Bool
deriving Repr, DecidableEq

/-- `AtlanRAG.answer_question`, lines 379-408, with the two retrieval
channels and the language model as parameters. -/
def answer_question (llm : String → String) (query : String)
    (vector_results keyword_results : List SearchResult) : RAGAnswer :=
  let search_results := search_documents vector_results keyword_results
  { answer := generate_rag_response llm query search_results,
    sources := extract_unique_sources search_results,
    retrieved_chunks := search_results.length,
    search_methods_used := (collect_search_methods search_results).eraseDups,
    hybrid_search_enabled := ENABLE_HYBRID_SEARCH,
    query_enhancement_enabled := ENABLE_QUERY_ENHANCEMENT }

/-! ### `memory_manager.py`: `ConversationMemoryManager`

Wall-clock times (`time.time()`) are rationals passed explicitly as `now`;
`uuid.uuid4()` is a parameter `fresh`.  The per-session LangChain chat
history is the list of its messages. -/

/-- A LangChain `HumanMessage` or `AIMessage`. -/
inductive ChatMessage where
  | human (content : String)
  | ai (content : String)
deriving Repr, DecidableEq

/-- One entry of `self.sessions`. -/
structure Session where
  messages : List ChatMessage
  created_at : ℚ
  last_accessed : ℚ
deriving Repr, DecidableEq

/-- The mutable state of a `ConversationMemoryManager`:  constructor
configuration plus `self.sessions`, `self.operation_count` and
`self.cleanup_stats`. -/
structure MemoryState where
  sessions : List (String × Session)
  max_messages : ℕ
  session_timeout : ℚ
  auto_cleanup_interval : ℕ
  operation_count : ℕ
  total_cleanups : ℕ
  total_expired_removed : ℕ
deriving Repr, DecidableEq

/-- A fresh session record (lines 59-63). -/
def newSession (now : ℚ) : Session :=
  { messages := [], created_at := now, last_accessed := now }

/-- `ConversationMemoryManager.cleanup_expired_sessions`, lines 234-257:
remove every session with `now - last_accessed ≥ timeout`, update the
cleanup statistics when anything was removed, return the removed count. -/
def cleanup_expired_sessions (now : ℚ) (st : MemoryState) : ℕ × MemoryState :=
  let expired := st.sessions.filter
    (fun p => decide (st.session_timeout ≤ now - p.2.last_accessed))
  let kept := st.sessions.filter
    (fun p => !decide (st.session_timeout ≤ now - p.2.last_accessed))
  if expired.length = 0 then (0, { st with sessions := kept })
  else
    (expired.length,
     { st with sessions := kept,
               total_cleanups := st.total_cleanups + 1,
               total_expired_removed := st.total_expired_removed + expired.length })

/-- `ConversationMemoryManager._maybe_auto_cleanup`, lines 322-339. -/
def maybe_auto_cleanup (force : Bool) (now : ℚ) (st : MemoryState) : ℕ × MemoryState :=
  let st1 := { st with operation_count := st.operation_count + 1 }
  if force || decide (st1.auto_cleanup_interval ≤ st1.operation_count) then
    let r := cleanup_expired_sessions now st1
    (r.1, { r.2 with operation_count := 0 })
  else (0, st1)

/-- `ConversationMemoryManager.list_active_sessions`, lines 218-232. -/
def list_active_sessions (now : ℚ) (st : MemoryState) : List String :=
  (st.sessions.filter (fun p => decide (now - p.2.last_accessed < st.session_timeout))).map
    (fun p => p.1)

/-- `ConversationMemoryManager.get_or_create_session`, lines 39-64.
Python's `if session_id and session_id in self.sessions` treats `None`
(`none`) and the empty string as falsy, and
`new_session_id = session_id or self.get_session_id()` keeps a truthy
caller-supplied id even when it is unknown. -/
def get_or_create_session (fresh : String) (now : ℚ) (session_id : Option String)
    (st : MemoryState) : String × MemoryState :=
  let st1 := (maybe_auto_cleanup false now st).2
  match session_id with
  | some sid =>
    if sid ≠ "" ∧ (dlookup sid st1.sessions).isSome then
      let touched := dupdate sid (fun s => { s with last_accessed := now }) st1.sessions
      (sid, { st1 with sessions := touched })
    else
      let nid := if sid ≠ "" then sid else fresh
      (nid, { st1 with sessions := dinsert nid (newSession now) st1.sessions })
  | none => (fresh, { st1 with sessions := dinsert fresh (newSession now) st1.sessions })

/-- The even removal target of `_trim_session_messages` (lines 304-309):
`len - max`, rounded up to the next even number. -/
def evenTrimTarget (len maxM : ℕ) : ℕ :=
  if (len - maxM) % 2 = 1 then len - maxM + 1 else len - maxM

/-- The number of messages `_trim_session_messages` removes from a list of
length `len` (lines 304-312): the even target, capped at `len - 2`. -/
def trimCount (len maxM : ℕ) : ℕ :=
  min (evenTrimTarget len maxM) (len - 2)

/-- The message-list transformation of `_trim_session_messages`,
lines 301-317. -/
def trimList (maxM : ℕ) (l : List ChatMessage) : List ChatMessage :=
  if l.length ≤ maxM then l
  else if 0 < trimCount l.length maxM then l.drop (trimCount l.length maxM)
  else l

/-- `ConversationMemoryManager._trim_session_messages`, lines 287-320. -/
def trim_session_messages (sid : String) (st : MemoryState) : MemoryState :=
  match dlookup sid st.sessions with
  | none => st
  | some s =>
    let trimmed := dupdate sid (fun _ => { s with messages := trimList st.max_messages s.messages }) st.sessions
    { st with sessions := trimmed }

/-- Shared body of `add_user_message` / `add_ai_message` (lines 66-110):
ensure the session exists, append the message, refresh `last_accessed`,
trim, then trigger the periodic cleanup. -/
def add_message (fresh : String) (now : ℚ) (sid : String) (msg : ChatMessage)
    (st : MemoryState) : MemoryState :=
  let target :=
    if (dlookup sid st.sessions).isSome then (sid, st)
    else get_or_create_session fresh now (some sid) st
  let sid1 := target.1
  let st1 := target.2
  let appended := dupdate sid1 (fun s => { s with messages := s.messages ++ [msg], last_accessed := now }) st1.sessions
  let st2 := { st1 with sessions := appended }
  let st3 := trim_session_messages sid1 st2
  (maybe_auto_cleanup false now st3).2

/-- `ConversationMemoryManager.add_user_message`, lines 66-87. -/
def add_user_message (fresh : String) (now : ℚ) (sid content : String)
    (st : MemoryState) : MemoryState :=
  add_message fresh now sid (ChatMessage.human content) st

/-- `ConversationMemoryManager.add_ai_message`, lines 89-110. -/
def add_ai_message (fresh : String) (now : ℚ) (sid content : String)
    (st : MemoryState) : MemoryState :=
  add_message fresh now sid (ChatMessage.ai content) st

/-- `ConversationMemoryManager.get_conversation_history`, lines 112-131:
an unknown session id returns `[]` immediately, before the
`last_accessed` refresh and before `_maybe_auto_cleanup`.  The first
component is `none` exactly when Python would raise a `KeyError` (the
periodic cleanup removed the session before the final read). -/
def get_conversation_history (now : ℚ) (sid : String) (st : MemoryState) :
    Option (List ChatMessage) × MemoryState :=
  match dlookup sid st.sessions with
  | none => (some [], st)
  | some _ =>
    let touched := dupdate sid (fun s => { s with last_accessed := now }) st.sessions
    let st1 := { st with sessions := touched }
    let st2 := (maybe_auto_cleanup false now st1).2
    ((dlookup sid st2.sessions).map (fun s => s.messages), st2)

/-- A sequence of append calls: `true` selects `add_user_message`,
`false` selects `add_ai_message`. -/
def runAppends (fresh : String) (now : ℚ) (ops : List (Bool × String × String))
    (st : MemoryState) : MemoryState :=
  ops.foldl (fun st op =>
    if op.1 then add_user_message fresh now op.2.1 op.2.2 st
    else add_ai_message fresh now op.2.1 op.2.2 st) st

/-- All sessions of a state hold at most `m` messages. -/
def SessionsBounded (m : ℕ) (st : MemoryState) : Prop :=
  ∀ p ∈ st.sessions, p.2.messages.length ≤ m

/-! ### C1: `keyword_search` returns at most `k` strictly positive hits,
scores non-increasing, ties in original index order -/

theorem keyword_search_hits_pairwise (scores : List ℚ) (k : ℕ) :
    (keyword_search_hits scores k).Pairwise
      (stableRel (fun i => scores.getD i 0) (· < ·)) := by
  have hrange : (List.range scores.length).Pairwise (· < ·) :=
    List.pairwise_lt_range _
  have hsorted := @pairwise_sortDescBy ℕ (fun i => scores.getD i 0) _ _ hrange
  have htake := hsorted.sublist (List.take_sublist k _)
  exact htake.sublist (List.filter_sublist _)

/-- C1: for every built keyword index (i.e. every BM25 score list), every
query and every `k`: `keyword_search` returns at most `k` results, every
returned score is strictly positive, the scores are non-increasing, and
indices with equal scores are kept in original index order (stable sort). -/
theorem keyword_search_topk (texts : List String) (metas : List DocMeta)
    (scores : List ℚ) (k : ℕ) :
    (keyword_search texts metas scores k).length ≤ k
    ∧ (∀ r ∈ keyword_search texts metas scores k, 0 < r.score)
    ∧ ((keyword_search texts metas scores k).map (fun r => r.score)).Pairwise
        (fun a b => b ≤ a)
    ∧ (keyword_search_hits scores k).Pairwise
        (fun i j => scores.getD i 0 = scores.getD j 0 → i < j) := by
  have hpw := keyword_search_hits_pairwise scores k
  refine ⟨?_, ?_, ?_, ?_⟩
  · calc (keyword_search texts metas scores k).length
        = (keyword_search_hits scores k).length := List.length_map _ _
      _ ≤ ((sortDescBy (fun i => scores.getD i 0) (List.range scores.length)).take k).length :=
          List.length_filter_le _ _
      _ ≤ k := by rw [List.length_take]; exact min_le_left _ _
  · intro r hr
    rcases List.mem_map.mp hr with ⟨idx, hidx, hr⟩
    have hpos := (List.mem_filter.mp hidx).2
    rw [← hr]
    simpa using hpos
  · simp only [keyword_search, List.map_map, List.pairwise_map]
    refine hpw.imp ?_
    intro i j h
    exact stableRel_key_le h
  · refine hpw.imp ?_
    intro i j h heq
    rcases h with h | h
    · exact absurd heq.symm (ne_of_lt h)
    · exact h.2

/-- Witness for C1 at a concrete index: scores `[3, 1, 3, 0]`, `k = 3`. -/
theorem keyword_search_topk_witness :
    (keyword_search ["a", "b", "c", "d"] [] [3, 1, 3, 0] 3).length ≤ 3 ∧
    0 < ((keyword_search ["a", "b", "c", "d"] [] [3, 1, 3, 0] 3).getD 0 default).score := by
  refine ⟨(keyword_search_topk ["a", "b", "c", "d"] [] [3, 1, 3, 0] 3).1, ?_⟩
  apply (keyword_search_topk ["a", "b", "c", "d"] [] [3, 1, 3, 0] 3).2.1
  norm_num [keyword_search, keyword_search_hits, sortDescBy, insertDesc, List.range_succ]

/-! ### Dictionary lemmas -/

theorem dlookup_nil [DecidableEq κ] (k : κ) : dlookup k ([] : List (κ × β)) = none := rfl

theorem dlookup_cons [DecidableEq κ] (k : κ) (p : κ × β) (rest : List (κ × β)) :
    dlookup k (p :: rest) = if p.1 = k then some p.2 else dlookup k rest := rfl

theorem dlookup_append_some [DecidableEq κ] {k : κ} {v : β} {l1 l2 : List (κ × β)}
    (h : dlookup k l1 = some v) : dlookup k (l1 ++ l2) = some v := by
  induction l1 with
  | nil => simp [dlookup_nil] at h
  | cons p rest ih =>
    rw [dlookup_cons] at h
    rw [List.cons_append, dlookup_cons]
    split at h <;> rename_i hk
    · rw [if_pos hk]; exact h
    · rw [if_neg hk]; exact ih h

theorem dlookup_append_none [DecidableEq κ] {k : κ} {l1 l2 : List (κ × β)}
    (h : dlookup k l1 = none) : dlookup k (l1 ++ l2) = dlookup k l2 := by
  induction l1 with
  | nil => simp
  | cons p rest ih =>
    rw [dlookup_cons] at h
    rw [List.cons_append, dlookup_cons]
    split at h <;> rename_i hk
    · exact absurd h (by simp)
    · rw [if_neg hk]; exact ih h

theorem dlookup_single_ne [DecidableEq κ] {t k : κ} {v : β} (h : k ≠ t) :
    dlookup t [(k, v)] = none := by
  rw [dlookup_cons, if_neg h, dlookup_nil]

theorem dlookup_single_eq [DecidableEq κ] (k : κ) (v : β) :
    dlookup k [(k, v)] = some v := by
  rw [dlookup_cons, if_pos rfl]

theorem dlookup_dupdate_self [DecidableEq κ] (k : κ) (f : β → β) (l : List (κ × β)) :
    dlookup k (dupdate k f l) = (dlookup k l).map f := by
  induction l with
  | nil => rfl
  | cons p rest ih =>
    simp only [dupdate, List.map_cons]
    by_cases hk : p.1 = k
    · rw [if_pos hk, dlookup_cons, dlookup_cons, if_pos hk]
      simp [if_pos hk]
    · rw [if_neg hk, dlookup_cons, dlookup_cons, if_neg hk, if_neg hk]
      exact ih

theorem dlookup_dupdate_ne [DecidableEq κ] {t k : κ} (f : β → β) (l : List (κ × β))
    (h : t ≠ k) : dlookup t (dupdate k f l) = dlookup t l := by
  induction l with
  | nil => rfl
  | cons p rest ih =>
    simp only [dupdate, List.map_cons]
    by_cases hk : p.1 = k
    · have hpt : ¬ p.1 = t := fun hh => h (hh ▸ hk)
      rw [if_pos hk, dlookup_cons, dlookup_cons]
      simp only [if_neg hpt]
      exact ih
    · rw [if_neg hk, dlookup_cons, dlookup_cons]
      by_cases ht : p.1 = t
      · rw [if_pos ht, if_pos ht]
      · rw [if_neg ht, if_neg ht]
        exact ih

theorem dupdate_keys [DecidableEq κ] (k : κ) (f : β → β) (l : List (κ × β)) :
    (dupdate k f l).map (fun p => p.1) = l.map (fun p => p.1) := by
  induction l with
  | nil => rfl
  | cons p rest ih =>
    simp only [dupdate, List.map_cons] at ih ⊢
    by_cases hk : p.1 = k
    · rw [if_pos hk, ih]
    · rw [if_neg hk, ih]

theorem dlookup_eq_none_iff [DecidableEq κ] {k : κ} {l : List (κ × β)} :
    dlookup k l = none ↔ k ∉ l.map (fun p => p.1) := by
  induction l with
  | nil => simp [dlookup_nil]
  | cons p rest ih =>
    rw [dlookup_cons]
    by_cases hk : p.1 = k
    · rw [if_pos hk]
      simp [hk]
    · rw [if_neg hk]
      simp only [List.map_cons, List.mem_cons, ih]
      constructor
      · intro h hmem
        rcases hmem with hmem | hmem
        · exact hk hmem.symm
        · exact h hmem
      · intro h hmem
        exact h (Or.inr hmem)

theorem mem_of_dlookup_some [DecidableEq κ] {k : κ} {v : β} {l : List (κ × β)}
    (h : dlookup k l = some v) : (k, v) ∈ l := by
  induction l with
  | nil => simp [dlookup_nil] at h
  | cons p rest ih =>
    rw [dlookup_cons] at h
    split at h <;> rename_i hk
    · cases h
      rw [← hk]
      exact List.mem_cons_self _ _
    · exact List.mem_cons_of_mem _ (ih h)

theorem eq_of_mem_dlookup_nodup [DecidableEq κ] {t : κ} {v : β} {l : List (κ × β)}
    (hnd : (l.map (fun p => p.1)).Nodup) (hl : dlookup t l = some v) :
    ∀ p ∈ l, p.1 = t → p.2 = v := by
  induction l with
  | nil => simp
  | cons q rest ih =>
    simp only [List.map_cons, List.nodup_cons] at hnd
    rw [dlookup_cons] at hl
    intro p hp hpt
    rcases List.mem_cons.mp hp with hp | hp
    · subst hp
      rw [if_pos hpt] at hl
      exact Option.some.inj hl
    · have hq : ¬ q.1 = t := by
        intro hq
        exact hnd.1 ((hq.trans hpt.symm) ▸ (List.mem_map.mpr ⟨p, hp, rfl⟩))
      rw [if_neg hq] at hl
      exact ih hnd.2 hl p hp hpt

theorem countP_key_eq_one [DecidableEq κ] {t : κ} {v : β} {l : List (κ × β)}
    (hnd : (l.map (fun p => p.1)).Nodup) (hl : dlookup t l = some v) :
    l.countP (fun p => decide (p.1 = t)) = 1 := by
  induction l with
  | nil => simp [dlookup_nil] at hl
  | cons q rest ih =>
    simp only [List.map_cons, List.nodup_cons] at hnd
    rw [dlookup_cons] at hl
    rw [List.countP_cons]
    by_cases hq : q.1 = t
    · have hzero : rest.countP (fun p => decide (p.1 = t)) = 0 := by
        rw [List.countP_eq_zero]
        intro p hp
        simp only [decide_eq_true_eq]
        intro hpt
        exact hnd.1 ((hq.trans hpt.symm) ▸ (List.mem_map.mpr ⟨p, hp, rfl⟩))
      simp [hq, hzero]
    · rw [if_neg hq] at hl
      simp [hq, ih hnd.2 hl]

/-! ### Bounds of the fold-based max / min, and C5 -/

theorem le_foldl_max (b : ℚ) (l : List ℚ) : b ≤ l.foldl max b := by
  induction l generalizing b with
  | nil => exact le_refl b
  | cons x xs ih =>
    exact le_trans (le_max_left b x) (ih (max b x))

theorem mem_le_foldl_max (b : ℚ) (l : List ℚ) : ∀ x ∈ l, x ≤ l.foldl max b := by
  induction l generalizing b with
  | nil => simp
  | cons y ys ih =>
    intro x hx
    rcases List.mem_cons.mp hx with hx | hx
    · subst hx
      exact le_trans (le_max_right b x) (le_foldl_max (max b x) ys)
    · exact ih (max b y) x hx

theorem foldl_min_le (b : ℚ) (l : List ℚ) : l.foldl min b ≤ b := by
  induction l generalizing b with
  | nil => exact le_refl b
  | cons x xs ih =>
    exact le_trans (ih (min b x)) (min_le_left b x)

theorem foldl_min_le_mem (b : ℚ) (l : List ℚ) : ∀ x ∈ l, l.foldl min b ≤ x := by
  induction l generalizing b with
  | nil => simp
  | cons y ys ih =>
    intro x hx
    rcases List.mem_cons.mp hx with hx | hx
    · subst hx
      exact le_trans (foldl_min_le (min b x) ys) (min_le_right b x)
    · exact ih (min b y) x hx

theorem le_foldMaxScore {results : List SearchResult} :
    ∀ r ∈ results, r.score ≤ foldMaxScore results := by
  cases results with
  | nil => simp
  | cons q rs =>
    intro r hr
    rcases List.mem_cons.mp hr with hr | hr
    · subst hr
      exact le_foldl_max _ _
    · exact mem_le_foldl_max _ _ _ (List.mem_map.mpr ⟨r, hr, rfl⟩)

theorem foldMinScore_le {results : List SearchResult} :
    ∀ r ∈ results, foldMinScore results ≤ r.score := by
  cases results with
  | nil => simp
  | cons q rs =>
    intro r hr
    rcases List.mem_cons.mp hr with hr | hr
    · subst hr
      exact foldl_min_le _ _
    · exact foldl_min_le_mem _ _ _ (List.mem_map.mpr ⟨r, hr, rfl⟩)

/-- The normalized score formula of line 188:
`(score - min) / (max - min)` over a channel's result set. -/
def normScore (results : List SearchResult) (r : SearchResult) : ℚ :=
  (r.score - foldMinScore results) / (foldMaxScore results - foldMinScore results)

/-- C5: min-max normalization: non-empty result sets are unchanged when
`max = min`; otherwise each result gets the normalized score
`(score - min) / (max - min)`, which lies in `[0, 1]`. -/
theorem normalize_scores_minmax (results : List SearchResult) (h : results ≠ []) :
    (foldMaxScore results = foldMinScore results → normalize_scores results = results)
    ∧ (foldMaxScore results ≠ foldMinScore results →
        normalize_scores results
          = results.map (fun r => { r with normalized_score := some (normScore results r) })
        ∧ ∀ r ∈ results, 0 ≤ normScore results r ∧ normScore results r ≤ 1) := by
  rcases results with _ | ⟨q, rs⟩
  · exact absurd rfl h
  constructor
  · intro heq
    unfold normalize_scores
    rw [if_pos heq]
  · intro hne
    have hminmax : foldMinScore (q :: rs) < foldMaxScore (q :: rs) :=
      lt_of_le_of_ne
        (le_trans (foldMinScore_le q (List.mem_cons_self _ _))
          (le_foldMaxScore q (List.mem_cons_self _ _)))
        (Ne.symm hne)
    have hpos : 0 < foldMaxScore (q :: rs) - foldMinScore (q :: rs) := by linarith
    constructor
    · unfold normalize_scores
      rw [if_neg hne]
      rfl
    · intro r hr
      unfold normScore
      constructor
      · apply div_nonneg _ (le_of_lt hpos)
        have := foldMinScore_le r hr
        linarith
      · rw [div_le_one hpos]
        have := le_foldMaxScore r hr
        linarith

/-- A sample retrieved chunk used for concrete instances. -/
def sampleResult (t u : String) (q : ℚ) : SearchResult :=
  { text := t, source_url := u, title := "", doc_type := "", score := q,
    search_type := "vector" }

/-- Witness for C5 on the two-element result set with scores `4` and `1`. -/
theorem normalize_scores_minmax_witness :
    normalize_scores [sampleResult "A" "u" 4, sampleResult "B" "v" 1]
      = [{ sampleResult "A" "u" 4 with normalized_score := some 1 },
         { sampleResult "B" "v" 1 with normalized_score := some 0 }]
    ∧ 0 ≤ normScore [sampleResult "A" "u" 4, sampleResult "B" "v" 1]
            (sampleResult "A" "u" 4) := by
  have hmm : foldMaxScore [sampleResult "A" "u" 4, sampleResult "B" "v" 1]
      ≠ foldMinScore [sampleResult "A" "u" 4, sampleResult "B" "v" 1] := by
    norm_num [foldMaxScore, foldMinScore, sampleResult]
  have h := (normalize_scores_minmax [sampleResult "A" "u" 4, sampleResult "B" "v" 1]
    (by simp)).2 hmm
  refine ⟨?_, (h.2 (sampleResult "A" "u" 4) (List.mem_cons_self _ _)).1⟩
  rw [h.1]
  norm_num [foldMaxScore, foldMinScore, normScore, sampleResult]

/-! ### Shape of `normalize_scores` and invariants of the merge dictionary -/

theorem normalize_scores_shape (l : List SearchResult) :
    normalize_scores l = l
    ∨ normalize_scores l
        = l.map (fun r => { r with normalized_score := some (normScore l r) }) := by
  cases l with
  | nil => exact Or.inl rfl
  | cons q rs =>
    unfold normalize_scores
    by_cases h : foldMaxScore (q :: rs) = foldMinScore (q :: rs)
    · rw [if_pos h]
      exact Or.inl rfl
    · rw [if_neg h]
      exact Or.inr rfl

theorem text_key_mk_normalized (l : List SearchResult) (r : SearchResult) :
    text_key { r with normalized_score := some (normScore l r) } = text_key r := rfl

theorem normalize_scores_countP_key (l : List SearchResult) (t : List Char) :
    (normalize_scores l).countP (fun r => decide (text_key r = t))
      = l.countP (fun r => decide (text_key r = t)) := by
  rcases normalize_scores_shape l with h | h
  · rw [h]
  · rw [h, List.countP_map]
    rfl

theorem normalize_scores_length (l : List SearchResult) :
    (normalize_scores l).length = l.length := by
  rcases normalize_scores_shape l with h | h
  · rw [h]
  · rw [h, List.length_map]

/-- All keys of the combined dictionary are distinct. -/
def keysNodup (l : List (List Char × SearchResult)) : Prop :=
  (l.map (fun p => p.1)).Nodup

/-- Every binding of the combined dictionary stores a result whose own
text key is the binding's key. -/
def keyConsistent (l : List (List Char × SearchResult)) : Prop :=
  ∀ p ∈ l, text_key p.2 = p.1

theorem addChannelStep_inv (w : ℚ) (tag : String)
    (acc : List (List Char × SearchResult)) (r : SearchResult)
    (h1 : keysNodup acc) (h2 : keyConsistent acc) :
    keysNodup (addChannelStep w tag acc r) ∧ keyConsistent (addChannelStep w tag acc r) := by
  unfold addChannelStep
  cases hl : dlookup (text_key r) acc with
  | none =>
    constructor
    · unfold keysNodup at h1 ⊢
      rw [List.map_append]
      rw [List.nodup_append]
      refine ⟨h1, List.nodup_singleton _, ?_⟩
      intro a ha hb
      simp only [List.map_cons, List.map_nil, List.mem_singleton] at hb
      subst hb
      exact (dlookup_eq_none_iff.mp hl) ha
    · intro p hp
      rcases List.mem_append.mp hp with hp | hp
      · exact h2 p hp
      · simp only [List.mem_singleton] at hp
        subst hp
        rfl
  | some old =>
    constructor
    · unfold keysNodup at h1 ⊢
      rw [dupdate_keys]
      exact h1
    · intro p hp
      rcases List.mem_map.mp hp with ⟨q, hq, hpq⟩
      by_cases hqk : q.1 = text_key r
      · rw [if_pos hqk] at hpq
        subst hpq
        have hold : text_key old = text_key r :=
          h2 (text_key r, old) (mem_of_dlookup_some hl)
        simpa [text_key, hqk] using hold
      · rw [if_neg hqk] at hpq
        subst hpq
        exact h2 q hq

theorem addChannel_inv (w : ℚ) (tag : String) :
    ∀ (rs : List SearchResult) (acc : List (List Char × SearchResult)),
      keysNodup acc → keyConsistent acc →
      keysNodup (addChannel w tag acc rs) ∧ keyConsistent (addChannel w tag acc rs) := by
  intro rs
  induction rs with
  | nil => exact fun acc h1 h2 => ⟨h1, h2⟩
  | cons r rest ih =>
    intro acc h1 h2
    have hstep := addChannelStep_inv w tag acc r h1 h2
    exact ih (addChannelStep w tag acc r) hstep.1 hstep.2

theorem dlookup_addChannelStep_no_key {w : ℚ} {tag : String} {t : List Char}
    {acc : List (List Char × SearchResult)} {r : SearchResult}
    (h : text_key r ≠ t) :
    dlookup t (addChannelStep w tag acc r) = dlookup t acc := by
  unfold addChannelStep
  cases hl : dlookup (text_key r) acc with
  | none =>
    cases hacc : dlookup t acc with
    | none =>
      rw [dlookup_append_none hacc, dlookup_single_ne h]
    | some v =>
      rw [dlookup_append_some hacc]
  | some old =>
    exact dlookup_dupdate_ne _ _ (fun hh => h hh.symm)

theorem dlookup_addChannel_no_key {w : ℚ} {tag : String} {t : List Char} :
    ∀ (rs : List SearchResult) (acc : List (List Char × SearchResult)),
      (∀ r ∈ rs, text_key r ≠ t) →
      dlookup t (addChannel w tag acc rs) = dlookup t acc := by
  intro rs
  induction rs with
  | nil => exact fun acc _ => rfl
  | cons r rest ih =>
    intro acc h
    have h1 := ih (addChannelStep w tag acc r) (fun x hx => h x (List.mem_cons_of_mem r hx))
    rw [show addChannel w tag acc (r :: rest)
          = addChannel w tag (addChannelStep w tag acc r) rest from rfl,
        h1, dlookup_addChannelStep_no_key (h r (List.mem_cons_self r rest))]

theorem addChannel_append (w : ℚ) (tag : String) :
    ∀ (l1 l2 : List SearchResult) (acc : List (List Char × SearchResult)),
      addChannel w tag acc (l1 ++ l2) = addChannel w tag (addChannel w tag acc l1) l2 := by
  intro l1
  induction l1 with
  | nil => exact fun l2 acc => rfl
  | cons r rest ih =>
    intro l2 acc
    exact ih l2 (addChannelStep w tag acc r)

theorem countP_eq_one_split {p : α → Bool} {l : List α} (h : l.countP p = 1) :
    ∃ l1 x l2, l = l1 ++ x :: l2 ∧ p x ∧ l1.countP p = 0 ∧ l2.countP p = 0 := by
  induction l with
  | nil => simp at h
  | cons y ys ih =>
    rw [List.countP_cons] at h
    by_cases hy : p y
    · rw [if_pos hy] at h
      have hys : ys.countP p = 0 := by omega
      exact ⟨[], y, ys, rfl, hy, rfl, hys⟩
    · rw [if_neg hy] at h
      simp only [Nat.add_zero] at h
      rcases ih h with ⟨l1, x, l2, hsplit, hx, h1, h2⟩
      refine ⟨y :: l1, x, l2, by rw [hsplit, List.cons_append], hx, ?_, h2⟩
      rw [List.countP_cons, if_neg hy, h1]

theorem eq_of_countP_eq_one {p : α → Bool} {l : List α} {x y : α}
    (h : l.countP p = 1) (hx : x ∈ l) (hpx : p x) (hy : y ∈ l) (hpy : p y) : x = y := by
  rcases countP_eq_one_split h with ⟨l1, z, l2, hsplit, hz, h1, h2⟩
  subst hsplit
  have hone : ∀ a, a ∈ l1 ++ z :: l2 → p a → a = z := by
    intro a ha hpa
    rcases List.mem_append.mp ha with ha | ha
    · exact absurd hpa ((List.countP_eq_zero.mp h1) a ha)
    · rcases List.mem_cons.mp ha with ha | ha
      · exact ha
      · exact absurd hpa ((List.countP_eq_zero.mp h2) a ha)
  rw [hone x hx hpx, hone y hy hpy]

/-! ### Lookup of a uniquely-keyed result through a channel loop -/

theorem dlookup_addChannel_single_absent (w : ℚ) (tag : String) {t : List Char}
    {rs : List SearchResult} {rv : SearchResult}
    (hc : rs.countP (fun r => decide (text_key r = t)) = 1)
    (hrv : rv ∈ rs) (ht : text_key rv = t)
    {acc : List (List Char × SearchResult)} (hacc : dlookup t acc = none) :
    dlookup t (addChannel w tag acc rs)
      = some { rv with final_score := some (eff rv * w), search_types := [tag] } := by
  rcases countP_eq_one_split hc with ⟨l1, x, l2, hsplit, hx, h1, h2⟩
  have hxmem : x ∈ rs := by
    rw [hsplit]
    exact List.mem_append.mpr (Or.inr (List.mem_cons_self _ _))
  have hrvx : rv = x :=
    eq_of_countP_eq_one hc hrv (by simp [ht]) hxmem hx
  subst hrvx
  have hxt : text_key rv = t := ht
  rw [hsplit, addChannel_append,
      show addChannel w tag (addChannel w tag acc l1) (rv :: l2)
        = addChannel w tag (addChannelStep w tag (addChannel w tag acc l1) rv) l2 from rfl]
  have hl1 : dlookup t (addChannel w tag acc l1) = none := by
    rw [dlookup_addChannel_no_key l1 acc ?_, hacc]
    intro r hr heq
    have := (List.countP_eq_zero.mp h1) r hr
    simp [heq] at this
  have hstep : dlookup t (addChannelStep w tag (addChannel w tag acc l1) rv)
      = some { rv with final_score := some (eff rv * w), search_types := [tag] } := by
    unfold addChannelStep
    rw [hxt, hl1, dlookup_append_none hl1, dlookup_single_eq]
  rw [dlookup_addChannel_no_key l2 _ ?_, hstep]
  intro r hr heq
  have := (List.countP_eq_zero.mp h2) r hr
  simp [heq] at this

theorem dlookup_addChannel_single_present (w : ℚ) (tag : String) {t : List Char}
    {rs : List SearchResult} {rk : SearchResult} {e : SearchResult}
    (hc : rs.countP (fun r => decide (text_key r = t)) = 1)
    (hrk : rk ∈ rs) (ht : text_key rk = t)
    {acc : List (List Char × SearchResult)} (hacc : dlookup t acc = some e) :
    dlookup t (addChannel w tag acc rs)
      = some { e with final_score := some (e.final_score.getD 0 + eff rk * w),
                      search_types := e.search_types ++ [tag] } := by
  rcases countP_eq_one_split hc with ⟨l1, x, l2, hsplit, hx, h1, h2⟩
  have hxmem : x ∈ rs := by
    rw [hsplit]
    exact List.mem_append.mpr (Or.inr (List.mem_cons_self _ _))
  have hrkx : rk = x :=
    eq_of_countP_eq_one hc hrk (by simp [ht]) hxmem hx
  subst hrkx
  rw [hsplit, addChannel_append,
      show addChannel w tag (addChannel w tag acc l1) (rk :: l2)
        = addChannel w tag (addChannelStep w tag (addChannel w tag acc l1) rk) l2 from rfl]
  have hl1 : dlookup t (addChannel w tag acc l1) = some e := by
    rw [dlookup_addChannel_no_key l1 acc ?_, hacc]
    intro r hr heq
    have := (List.countP_eq_zero.mp h1) r hr
    simp [heq] at this
  have hstep : dlookup t (addChannelStep w tag (addChannel w tag acc l1) rk)
      = some { e with final_score := some (e.final_score.getD 0 + eff rk * w),
                      search_types := e.search_types ++ [tag] } := by
    unfold addChannelStep
    rw [ht, hl1, dlookup_dupdate_self, hl1]
    rfl
  rw [dlookup_addChannel_no_key l2 _ ?_, hstep]
  intro r hr heq
  have := (List.countP_eq_zero.mp h2) r hr
  simp [heq] at this

/-! ### C3: cross-channel deduplication in `merge_and_rerank` -/

/-- C3 (amended): if exactly one vector result and exactly one keyword
result carry the dedup key `t` (the first 100 characters of the text),
then the combined dictionary holds exactly one entry for `t`, whose final
score is the sum of the two weighted normalized contributions and whose
channel tags are `["vector", "keyword"]`; the returned list contains at
most one result with that key, and exactly one whenever the combined
dictionary has at most `TOP_K` entries (the original claim's "exactly one
output entry" fails only through the final `[:TOP_K]` truncation). -/
theorem merge_dedup (v k : List SearchResult) (t : List Char) (rv rk : SearchResult)
    (hv : v.countP (fun r => decide (text_key r = t)) = 1)
    (hk : k.countP (fun r => decide (text_key r = t)) = 1)
    (hrv : rv ∈ normalize_scores v) (hrvt : text_key rv = t)
    (hrk : rk ∈ normalize_scores k) (hrkt : text_key rk = t) :
    ((mergedDict v k).map (fun p => p.2)).countP (fun r => decide (text_key r = t)) = 1
    ∧ (∀ p ∈ mergedDict v k, p.1 = t →
        p.2.final_score
          = some (eff rv * HYBRID_VECTOR_WEIGHT + eff rk * HYBRID_KEYWORD_WEIGHT)
        ∧ p.2.search_types = ["vector", "keyword"])
    ∧ (merge_and_rerank v k).countP (fun r => decide (text_key r = t)) ≤ 1
    ∧ ((mergedDict v k).length ≤ TOP_K →
        (merge_and_rerank v k).countP (fun r => decide (text_key r = t)) = 1) := by
  have hvc : (normalize_scores v).countP (fun r => decide (text_key r = t)) = 1 := by
    rw [normalize_scores_countP_key]; exact hv
  have hkc : (normalize_scores k).countP (fun r => decide (text_key r = t)) = 1 := by
    rw [normalize_scores_countP_key]; exact hk
  have hA : dlookup t (addChannel HYBRID_VECTOR_WEIGHT "vector" [] (normalize_scores v))
      = some { rv with final_score := some (eff rv * HYBRID_VECTOR_WEIGHT),
                       search_types := ["vector"] } :=
    dlookup_addChannel_single_absent _ _ hvc hrv hrvt (dlookup_nil t)
  have hM : dlookup t (mergedDict v k)
      = some { rv with
          final_score := some (eff rv * HYBRID_VECTOR_WEIGHT + eff rk * HYBRID_KEYWORD_WEIGHT),
          search_types := ["vector", "keyword"] } := by
    have := dlookup_addChannel_single_present HYBRID_KEYWORD_WEIGHT "keyword"
      hkc hrk hrkt hA
    exact this
  have hinvA := addChannel_inv HYBRID_VECTOR_WEIGHT "vector" (normalize_scores v) []
    (by simp [keysNodup]) (by intro p hp; simp at hp)
  have hinvM := addChannel_inv HYBRID_KEYWORD_WEIGHT "keyword" (normalize_scores k) _
    hinvA.1 hinvA.2
  have hcount1 : ((mergedDict v k).map (fun p => p.2)).countP
      (fun r => decide (text_key r = t)) = 1 := by
    rw [List.countP_map]
    have hcongr : (mergedDict v k).countP
        ((fun r => decide (text_key r = t)) ∘ (fun p => p.2))
        = (mergedDict v k).countP (fun p => decide (p.1 = t)) := by
      apply List.countP_congr
      intro p hp
      have hkey := hinvM.2 p hp
      simp only [Function.comp_apply, decide_eq_true_eq, hkey]
    rw [hcongr]
    exact countP_key_eq_one hinvM.1 hM
  refine ⟨hcount1, ?_, ?_, ?_⟩
  · intro p hp hpt
    have := eq_of_mem_dlookup_nodup hinvM.1 hM p hp hpt
    rw [this]
    exact ⟨rfl, rfl⟩
  · calc (merge_and_rerank v k).countP (fun r => decide (text_key r = t))
        ≤ (sortDescBy (fun r => r.final_score.getD 0)
            ((mergedDict v k).map (fun p => p.2))).countP
            (fun r => decide (text_key r = t)) := by
          apply List.Sublist.countP_le
          simp only [merge_and_rerank, ENABLE_HYBRID_SEARCH, Bool.not_true,
            Bool.false_eq_true, if_false]
          exact List.take_sublist _ _
      _ = 1 := by
          rw [(sortDescBy_perm _ _).countP_eq]
          exact hcount1
  · intro hlen
    have hlen2 : (sortDescBy (fun r => r.final_score.getD 0)
        ((mergedDict v k).map (fun p => p.2))).length ≤ TOP_K := by
      rw [length_sortDescBy, List.length_map]
      exact hlen
    simp only [merge_and_rerank, ENABLE_HYBRID_SEARCH, Bool.not_true,
      Bool.false_eq_true, if_false]
    rw [List.take_of_length_le hlen2, (sortDescBy_perm _ _).countP_eq]
    exact hcount1

/-- A sample keyword-channel chunk. -/
def sampleKw (t u : String) (q : ℚ) : SearchResult :=
  { text := t, source_url := u, title := "", doc_type := "", score := q,
    search_type := "keyword" }

/-- Counterexample to C3 as stated: with six distinct vector chunks of
equal score and one keyword chunk sharing the key "F", the fused entry for
"F" sorts last and the final `[:TOP_K]` truncation removes it, so the two
matching results are merged into zero output entries, not one. -/
theorem merge_dedup_cex :
    ([sampleResult "A" "a" 5, sampleResult "B" "b" 5, sampleResult "C" "c" 5,
      sampleResult "D" "d" 5, sampleResult "E" "e" 5,
      sampleResult "F" "f" 5].countP (fun r => decide (text_key r = "F".toList)) = 1)
    ∧ ([sampleKw "F" "f" 7].countP (fun r => decide (text_key r = "F".toList)) = 1)
    ∧ ((merge_and_rerank
          [sampleResult "A" "a" 5, sampleResult "B" "b" 5, sampleResult "C" "c" 5,
           sampleResult "D" "d" 5, sampleResult "E" "e" 5, sampleResult "F" "f" 5]
          [sampleKw "F" "f" 7]).countP (fun r => decide (text_key r = "F".toList)) = 0) := by
  refine ⟨by simp [sampleResult, text_key], by simp [sampleKw, text_key], ?_⟩
  simp [merge_and_rerank, mergedDict, addChannel, addChannelStep, normalize_scores,
    foldMaxScore, foldMinScore, eff, text_key, dlookup, dupdate, sortDescBy, insertDesc,
    sampleResult, sampleKw, HYBRID_VECTOR_WEIGHT, HYBRID_KEYWORD_WEIGHT,
    ENABLE_HYBRID_SEARCH, TOP_K]

/-- Witness for C3 on one vector chunk and one keyword chunk sharing the
key "A": the merged dictionary holds exactly one entry and the output
exactly one matching result. -/
theorem merge_dedup_witness :
    (((mergedDict [sampleResult "A" "a" 5] [sampleKw "A" "a" 7]).map
        (fun p => p.2)).countP (fun r => decide (text_key r = "A".toList)) = 1)
    ∧ ((merge_and_rerank [sampleResult "A" "a" 5] [sampleKw "A" "a" 7]).countP
        (fun r => decide (text_key r = "A".toList)) = 1) := by
  have h := merge_dedup [sampleResult "A" "a" 5] [sampleKw "A" "a" 7] ("A".toList)
    (sampleResult "A" "a" 5) (sampleKw "A" "a" 7)
    (by simp [sampleResult, text_key])
    (by simp [sampleKw, text_key])
    (by simp [normalize_scores, foldMaxScore, foldMinScore, sampleResult])
    (by simp [sampleResult, text_key])
    (by simp [normalize_scores, foldMaxScore, foldMinScore, sampleKw])
    (by simp [sampleKw, text_key])
  refine ⟨h.1, h.2.2.2 ?_⟩
  simp [mergedDict, addChannel, addChannelStep, normalize_scores, foldMaxScore,
    foldMinScore, dlookup, dupdate, sampleResult, sampleKw, text_key, TOP_K]

/-! ### C6: fusion when only one channel has results -/

theorem pairwise_of_all {R : α → α → Prop} (h : ∀ a b, R a b) :
    ∀ l : List α, l.Pairwise R := by
  intro l
  induction l with
  | nil => exact List.Pairwise.nil
  | cons x xs ih => exact List.pairwise_cons.mpr ⟨fun y _ => h x y, ih⟩

theorem addChannel_all_new (w : ℚ) (tag : String) :
    ∀ (rs : List SearchResult) (acc : List (List Char × SearchResult)),
      ((acc.map (fun p => p.1)) ++ rs.map text_key).Nodup →
      addChannel w tag acc rs
        = acc ++ rs.map (fun r =>
            (text_key r,
             { r with final_score := some (eff r * w), search_types := [tag] })) := by
  intro rs
  induction rs with
  | nil => intro acc _; simp [addChannel]
  | cons r rest ih =>
    intro acc hnd
    have hnotin : text_key r ∉ acc.map (fun p => p.1) := by
      rw [List.nodup_append] at hnd
      intro hmem
      exact hnd.2.2 hmem (by simp)
    have hstep : addChannelStep w tag acc r
        = acc ++ [(text_key r,
            { r with final_score := some (eff r * w), search_types := [tag] })] := by
      unfold addChannelStep
      rw [dlookup_eq_none_iff.mpr hnotin]
    have hnd2 : (((acc ++ [(text_key r,
        { r with final_score := some (eff r * w), search_types := [tag] })]).map
          (fun p : List Char × SearchResult => p.1)) ++ rest.map text_key).Nodup := by
      rw [List.map_append]
      simp only [List.map_cons, List.map_nil]
      rw [List.append_assoc]
      simpa using hnd
    calc addChannel w tag acc (r :: rest)
        = addChannel w tag (addChannelStep w tag acc r) rest := rfl
      _ = (acc ++ [(text_key r,
            { r with final_score := some (eff r * w), search_types := [tag] })])
            ++ rest.map (fun x =>
              (text_key x,
               { x with final_score := some (eff x * w), search_types := [tag] })) := by
          rw [hstep]
          exact ih _ hnd2
      _ = acc ++ (r :: rest).map (fun x =>
            (text_key x,
             { x with final_score := some (eff x * w), search_types := [tag] })) := by
          simp

/-- C6 (amended): if the keyword channel is empty, `search_documents`
returns the vector results completely unchanged (raw scores, no
normalization and no weighting); if only the keyword channel is non-empty
(with pairwise-distinct dedup keys and at most `TOP_K` results), fusion
preserves the keyword ranking unchanged and every final score is the
normalized score times `HYBRID_KEYWORD_WEIGHT`. -/
theorem search_documents_single_channel :
    (∀ v : List SearchResult, search_documents v [] = v)
    ∧ (∀ k : List SearchResult,
        (k.map text_key).Nodup → k.length ≤ TOP_K →
        search_documents [] k
          = (normalize_scores k).map (fun r =>
              { r with final_score := some (eff r * HYBRID_KEYWORD_WEIGHT),
                       search_types := ["keyword"] })) := by
  constructor
  · intro v
    simp [search_documents]
  · intro k hnd hlen
    rcases hk : k with _ | ⟨q, qs⟩
    · simp [search_documents, normalize_scores]
    rw [← hk]
    have hkne : ¬ k.isEmpty := by rw [hk]; simp
    have h1 : search_documents [] k = merge_and_rerank [] k := by
      simp [search_documents, ENABLE_HYBRID_SEARCH, hkne]
    have hndn : ((([] : List (List Char × SearchResult)).map (fun p => p.1))
        ++ (normalize_scores k).map text_key).Nodup := by
      simp only [List.map_nil, List.nil_append]
      rcases normalize_scores_shape k with hsh | hsh
      · rw [hsh]; exact hnd
      · rw [hsh, List.map_map]
        exact hnd
    have hdict : mergedDict [] k
        = (normalize_scores k).map (fun r =>
            (text_key r,
             { r with final_score := some (eff r * HYBRID_KEYWORD_WEIGHT),
                      search_types := ["keyword"] })) := by
      unfold mergedDict
      rw [show normalize_scores ([] : List SearchResult) = [] from rfl,
          show addChannel HYBRID_VECTOR_WEIGHT "vector" [] [] = [] from rfl]
      exact (addChannel_all_new _ _ _ _ hndn).trans (by simp)
    have hvals : (mergedDict [] k).map (fun p => p.2)
        = (normalize_scores k).map (fun r =>
            { r with final_score := some (eff r * HYBRID_KEYWORD_WEIGHT),
                     search_types := ["keyword"] }) := by
      rw [hdict, List.map_map]
      rfl
    have hsorted : sortDescBy (fun r => r.final_score.getD 0)
        ((mergedDict [] k).map (fun p => p.2))
        = (mergedDict [] k).map (fun p => p.2) := by
      apply sortDescBy_of_sorted
      rw [hvals, List.pairwise_map]
      apply pairwise_of_all
      intro a b
      simp [HYBRID_KEYWORD_WEIGHT]
    have hlen2 : ((mergedDict [] k).map (fun p => p.2)).length ≤ TOP_K := by
      rw [hvals, List.length_map, normalize_scores_length]
      exact hlen
    rw [h1]
    simp only [merge_and_rerank, ENABLE_HYBRID_SEARCH, Bool.not_true,
      Bool.false_eq_true, if_false]
    rw [hsorted, List.take_of_length_le hlen2, hvals]

/-- Counterexample to C6 as stated: with vector results of scores `4` and
`1` and an empty keyword channel, the pipeline returns the vector results
unchanged, so the second result's effective final score is its raw score
`1`, while the claimed value (normalized score times the vector weight)
is `0`. -/
theorem search_documents_single_channel_cex :
    search_documents [sampleResult "A" "u1" 4, sampleResult "B" "u2" 1] [] =
      [sampleResult "A" "u1" 4, sampleResult "B" "u2" 1]
    ∧ ((search_documents [sampleResult "A" "u1" 4, sampleResult "B" "u2" 1] []).getD 1
        default).final_score = none
    ∧ ((search_documents [sampleResult "A" "u1" 4, sampleResult "B" "u2" 1] []).getD 1
        default).score = 1
    ∧ normScore [sampleResult "A" "u1" 4, sampleResult "B" "u2" 1]
        (sampleResult "B" "u2" 1) * HYBRID_VECTOR_WEIGHT = 0
    ∧ (1 : ℚ) ≠ 0 := by
  refine ⟨by simp [search_documents], ?_, ?_, ?_, by norm_num⟩
  · simp [search_documents, sampleResult]
  · simp [search_documents, sampleResult]
  · norm_num [normScore, foldMaxScore, foldMinScore, sampleResult,
      HYBRID_VECTOR_WEIGHT]

/-- Witness for C6 on a one-element keyword channel and on a one-element
vector channel. -/
theorem search_documents_single_channel_witness :
    search_documents [] [sampleKw "A" "a" 7]
      = [{ sampleKw "A" "a" 7 with final_score := some 0, search_types := ["keyword"] }]
    ∧ search_documents [sampleResult "A" "u" 4] [] = [sampleResult "A" "u" 4] := by
  have h := search_documents_single_channel.2 [sampleKw "A" "a" 7]
    (by simp [sampleKw, text_key]) (by simp [TOP_K])
  constructor
  · rw [h]
    simp [normalize_scores, foldMaxScore, foldMinScore, eff, sampleKw,
      HYBRID_KEYWORD_WEIGHT]
  · exact search_documents_single_channel.1 [sampleResult "A" "u" 4]

/-! ### C7: empty fused results short-circuit to the fixed fallback -/

/-- C7: when both retrieval channels return zero results, the fused list
is empty, `generate_rag_response` returns the fixed fallback for every
language model `llm` (the model is never consulted: the result does not
depend on `llm`), and the end-to-end answer is the fallback with no
sources and a retrieved count of `0`. -/
theorem empty_results_fallback (llm : String → String) (query : String) :
    generate_rag_response llm query [] = NO_RESULTS_RESPONSE
    ∧ answer_question llm query [] []
        = { answer := NO_RESULTS_RESPONSE, sources := [], retrieved_chunks := 0,
            search_methods_used := [], hybrid_search_enabled := true,
            query_enhancement_enabled := false } := by
  exact ⟨rfl, rfl⟩

/-- Witness for C7 at a concrete model and query. -/
theorem empty_results_fallback_witness :
    answer_question (fun _ => "model reply") "How do I set up SSO?" [] []
      = { answer := NO_RESULTS_RESPONSE, sources := [], retrieved_chunks := 0,
          search_methods_used := [], hybrid_search_enabled := true,
          query_enhancement_enabled := false } :=
  (empty_results_fallback (fun _ => "model reply") "How do I set up SSO?").2

/-! ### C9: `extract_unique_sources` -/

/-- First-seen-order deduplication, the spec's description of the
`sources` list ("first-seen order, unique"); used as the reference
implementation that `extract_unique_sources` is proved to match on the
non-empty URLs. -/
def firstSeenDedupAux (seen : List String) : List String → List String
  | [] => []
  | x :: rest =>
    if x ∈ seen then firstSeenDedupAux seen rest
    else x :: firstSeenDedupAux (x :: seen) rest

theorem extractSourcesAux_eq :
    ∀ (rs : List SearchResult) (seen : List String),
      extractSourcesAux seen rs
        = firstSeenDedupAux seen ((rs.map (fun r => r.source_url)).filter
            (fun u => u ≠ "")) := by
  intro rs
  induction rs with
  | nil => intro seen; rfl
  | cons r rest ih =>
    intro seen
    by_cases hu : r.source_url = ""
    · have hcond : ¬ (r.source_url ≠ "" ∧ r.source_url ∉ seen) := by
        intro hc
        exact hc.1 hu
      simp only [extractSourcesAux, if_neg hcond, List.map_cons, List.filter_cons]
      rw [if_neg (by simp [hu])]
      exact ih seen
    · by_cases hs : r.source_url ∈ seen
      · have hcond : ¬ (r.source_url ≠ "" ∧ r.source_url ∉ seen) := by
          intro hc
          exact hc.2 hs
        simp only [extractSourcesAux, if_neg hcond, List.map_cons, List.filter_cons]
        rw [if_pos (by simp [hu])]
        unfold firstSeenDedupAux
        rw [if_pos hs]
        exact ih seen
      · have hcond : r.source_url ≠ "" ∧ r.source_url ∉ seen := ⟨hu, hs⟩
        simp only [extractSourcesAux, if_pos hcond, List.map_cons, List.filter_cons]
        rw [if_pos (by simp [hu])]
        unfold firstSeenDedupAux
        rw [if_neg hs, ih (r.source_url :: seen)]

theorem mem_firstSeenDedupAux :
    ∀ (l : List String) (seen : List String) (u : String),
      u ∈ firstSeenDedupAux seen l ↔ (u ∈ l ∧ u ∉ seen) := by
  intro l
  induction l with
  | nil => intro seen u; simp [firstSeenDedupAux]
  | cons x rest ih =>
    intro seen u
    unfold firstSeenDedupAux
    by_cases hx : x ∈ seen
    · rw [if_pos hx, ih]
      constructor
      · intro h
        exact ⟨List.mem_cons_of_mem x h.1, h.2⟩
      · intro h
        rcases List.mem_cons.mp h.1 with hux | hux
        · exact absurd (hux ▸ hx) h.2
        · exact ⟨hux, h.2⟩
    · rw [if_neg hx]
      constructor
      · intro h
        rcases List.mem_cons.mp h with hux | hux
        · exact ⟨hux ▸ List.mem_cons_self x rest, hux ▸ hx⟩
        · have := (ih (x :: seen) u).mp hux
          exact ⟨List.mem_cons_of_mem x this.1,
            fun hc => this.2 (List.mem_cons_of_mem x hc)⟩
      · intro h
        rcases List.mem_cons.mp h.1 with hux | hux
        · exact hux ▸ List.mem_cons_self x _
        · by_cases hux2 : u = x
          · exact hux2 ▸ List.mem_cons_self x _
          · refine List.mem_cons_of_mem x ((ih (x :: seen) u).mpr ⟨hux, ?_⟩)
            intro hc
            rcases List.mem_cons.mp hc with hc | hc
            · exact hux2 hc
            · exact h.2 hc

theorem nodup_firstSeenDedupAux :
    ∀ (l : List String) (seen : List String), (firstSeenDedupAux seen l).Nodup := by
  intro l
  induction l with
  | nil => intro seen; exact List.nodup_nil
  | cons x rest ih =>
    intro seen
    unfold firstSeenDedupAux
    by_cases hx : x ∈ seen
    · rw [if_pos hx]
      exact ih seen
    · rw [if_neg hx]
      refine List.nodup_cons.mpr ⟨?_, ih (x :: seen)⟩
      intro hc
      exact ((mem_firstSeenDedupAux rest (x :: seen) x).mp hc).2
        (List.mem_cons_self x seen)

/-- C9 (amended): `extract_unique_sources` returns exactly the first-seen
deduplication of the non-empty source URLs: every distinct non-empty URL
appears exactly once, in order of first occurrence; results with an empty
`source_url` are skipped. -/
theorem extract_unique_sources_spec (rs : List SearchResult) :
    extract_unique_sources rs
      = firstSeenDedupAux [] ((rs.map (fun r => r.source_url)).filter (fun u => u ≠ ""))
    ∧ (extract_unique_sources rs).Nodup
    ∧ ∀ u, u ∈ extract_unique_sources rs
        ↔ (u ≠ "" ∧ u ∈ rs.map (fun r => r.source_url)) := by
  have heq := extractSourcesAux_eq rs []
  refine ⟨heq, ?_, ?_⟩
  · rw [show extract_unique_sources rs = extractSourcesAux [] rs from rfl, heq]
    exact nodup_firstSeenDedupAux _ _
  · intro u
    rw [show extract_unique_sources rs = extractSourcesAux [] rs from rfl, heq,
        mem_firstSeenDedupAux]
    simp only [List.mem_filter, List.not_mem_nil, not_false_iff, and_true,
      decide_eq_true_eq]
    tauto

/-- Counterexample to C9 as stated: a result with an empty `source_url`
is skipped, so the distinct URL `""` occurring in the results does not
appear in the output at all (and hence not "exactly once"). -/
theorem extract_unique_sources_cex :
    extract_unique_sources [sampleResult "T" "" 1] = []
    ∧ [sampleResult "T" "" 1].map (fun r => r.source_url) = [""] := by
  constructor
  · simp [extract_unique_sources, extractSourcesAux, sampleResult]
  · simp [sampleResult]

/-- Witness for C9 on two results sharing the URL "u". -/
theorem extract_unique_sources_witness :
    extract_unique_sources [sampleResult "A" "u" 1, sampleResult "B" "u" 2] = ["u"]
    ∧ (extract_unique_sources [sampleResult "A" "u" 1, sampleResult "B" "u" 2]).Nodup
    ∧ ("u" ∈ extract_unique_sources [sampleResult "A" "u" 1, sampleResult "B" "u" 2]
        ↔ ("u" ≠ ""
            ∧ "u" ∈ [sampleResult "A" "u" 1, sampleResult "B" "u" 2].map
                (fun r => r.source_url))) := by
  refine ⟨?_,
    (extract_unique_sources_spec [sampleResult "A" "u" 1, sampleResult "B" "u" 2]).2.1,
    (extract_unique_sources_spec [sampleResult "A" "u" 1, sampleResult "B" "u" 2]).2.2 "u"⟩
  simp [extract_unique_sources, extractSourcesAux, sampleResult]

/-! ### Arithmetic of `_trim_session_messages` -/

theorem trimList_length_le (maxM : ℕ) (l : List ChatMessage) (hmax : 2 ≤ maxM) :
    (trimList maxM l).length ≤ maxM := by
  unfold trimList trimCount evenTrimTarget
  split_ifs with h1 h2 h3 <;> simp_all [List.length_drop] <;> omega

theorem trimList_min_two (maxM : ℕ) (l : List ChatMessage) :
    min l.length 2 ≤ (trimList maxM l).length := by
  unfold trimList trimCount evenTrimTarget
  split_ifs with h1 h2 h3 <;> simp_all [List.length_drop] <;> omega

theorem trimList_even_removed (maxM : ℕ) (l : List ChatMessage) :
    ((l.length - (trimList maxM l).length) % 2 = 0)
    ∨ (l.length < evenTrimTarget l.length maxM + 2 ∧ (trimList maxM l).length = 2) := by
  unfold trimList trimCount evenTrimTarget
  split_ifs with h1 h2 h3 <;> simp_all [List.length_drop] <;> omega

/-! ### Membership through dictionary operations and state updates -/

theorem mem_dupdate_cases [DecidableEq κ] {p : κ × β} {k : κ} {f : β → β}
    {l : List (κ × β)} (h : p ∈ dupdate k f l) :
    (p ∈ l ∧ p.1 ≠ k) ∨ ∃ q ∈ l, q.1 = k ∧ p = (q.1, f q.2) := by
  rcases List.mem_map.mp h with ⟨q, hq, hpq⟩
  by_cases hk : q.1 = k
  · rw [if_pos hk] at hpq
    exact Or.inr ⟨q, hq, hk, hpq.symm⟩
  · rw [if_neg hk] at hpq
    subst hpq
    exact Or.inl ⟨hq, hk⟩

theorem mem_dinsert_cases [DecidableEq κ] {p : κ × β} {k : κ} {v : β}
    {l : List (κ × β)} (h : p ∈ dinsert k v l) :
    p ∈ l ∨ p.2 = v := by
  unfold dinsert at h
  split at h
  · rcases mem_dupdate_cases h with hc | ⟨q, _, _, hpq⟩
    · exact Or.inl hc.1
    · exact Or.inr (by rw [hpq])
  · rcases List.mem_append.mp h with hc | hc
    · exact Or.inl hc
    · simp only [List.mem_singleton] at hc
      exact Or.inr (by rw [hc])

theorem key_mem_of_mem [DecidableEq κ] {p : κ × β} {l : List (κ × β)} (h : p ∈ l) :
    dlookup p.1 l ≠ none := by
  rw [Ne, dlookup_eq_none_iff]
  intro hc
  exact hc (List.mem_map.mpr ⟨p, h, rfl⟩)

/-! ### Field preservation and boundedness through the manager's calls -/

theorem cleanup_sessions_eq (now : ℚ) (st : MemoryState) :
    (cleanup_expired_sessions now st).2.sessions
      = st.sessions.filter
          (fun p => !decide (st.session_timeout ≤ now - p.2.last_accessed)) := by
  unfold cleanup_expired_sessions
  dsimp only
  split <;> rfl

theorem cleanup_fst_eq (now : ℚ) (st : MemoryState) :
    (cleanup_expired_sessions now st).1
      = (st.sessions.filter
          (fun p => decide (st.session_timeout ≤ now - p.2.last_accessed))).length := by
  unfold cleanup_expired_sessions
  dsimp only
  split
  · rename_i h
    exact h.symm
  · rfl

theorem cleanup_max (now : ℚ) (st : MemoryState) :
    (cleanup_expired_sessions now st).2.max_messages = st.max_messages := by
  unfold cleanup_expired_sessions
  dsimp only
  split <;> rfl

theorem maybe_max (force : Bool) (now : ℚ) (st : MemoryState) :
    (maybe_auto_cleanup force now st).2.max_messages = st.max_messages := by
  unfold maybe_auto_cleanup
  dsimp only
  split
  · exact cleanup_max now _
  · rfl

theorem cleanup_bounded {m : ℕ} {st : MemoryState} (now : ℚ)
    (h : SessionsBounded m st) :
    SessionsBounded m (cleanup_expired_sessions now st).2 := by
  intro p hp
  rw [cleanup_sessions_eq] at hp
  exact h p (List.mem_filter.mp hp).1

theorem maybe_bounded {m : ℕ} {st : MemoryState} (force : Bool) (now : ℚ)
    (h : SessionsBounded m st) :
    SessionsBounded m (maybe_auto_cleanup force now st).2 := by
  unfold maybe_auto_cleanup
  dsimp only
  split
  · exact cleanup_bounded now h
  · exact h

theorem goc_max (fresh : String) (now : ℚ) (sid? : Option String) (st : MemoryState) :
    (get_or_create_session fresh now sid? st).2.max_messages = st.max_messages := by
  unfold get_or_create_session
  cases sid? with
  | none => exact maybe_max false now st
  | some sid =>
    dsimp only
    split
    · exact maybe_max false now st
    · exact maybe_max false now st

theorem goc_bounded {m : ℕ} {st : MemoryState} (fresh : String) (now : ℚ)
    (sid? : Option String) (h : SessionsBounded m st) :
    SessionsBounded m (get_or_create_session fresh now sid? st).2 := by
  have hm : SessionsBounded m (maybe_auto_cleanup false now st).2 :=
    maybe_bounded false now h
  unfold get_or_create_session
  cases sid? with
  | none =>
    intro p hp
    rcases mem_dinsert_cases hp with hp | hp
    · exact hm p hp
    · rw [hp]
      exact Nat.zero_le m
  | some sid =>
    dsimp only
    split
    · intro p hp
      dsimp only at hp
      rcases mem_dupdate_cases hp with hp | ⟨q, hq, _, hpq⟩
      · exact hm p hp.1
      · rw [hpq]
        exact hm q hq
    · intro p hp
      dsimp only at hp
      rcases mem_dinsert_cases hp with hp | hp
      · exact hm p hp
      · rw [hp]
        exact Nat.zero_le m

theorem trim_max (sid : String) (st : MemoryState) :
    (trim_session_messages sid st).max_messages = st.max_messages := by
  unfold trim_session_messages
  split <;> rfl

theorem trim_bounded (sid : String) (st : MemoryState) (hmax : 2 ≤ st.max_messages)
    (h : ∀ p ∈ st.sessions, p.1 = sid ∨ p.2.messages.length ≤ st.max_messages) :
    SessionsBounded st.max_messages (trim_session_messages sid st) := by
  unfold trim_session_messages
  split
  · rename_i heq
    intro p hp
    rcases h p hp with hc | hc
    · exact absurd (hc ▸ heq) (key_mem_of_mem hp ∘ (hc ▸ ·))
    · exact hc
  · rename_i s heq
    intro p hp
    dsimp only at hp
    rcases mem_dupdate_cases hp with hp | ⟨q, hq, hqk, hpq⟩
    · rcases h p hp.1 with hc | hc
      · exact absurd hc hp.2
      · exact hc
    · rw [hpq]
      exact trimList_length_le _ _ hmax

theorem add_message_max (fresh : String) (now : ℚ) (sid : String) (msg : ChatMessage)
    (st : MemoryState) :
    (add_message fresh now sid msg st).max_messages = st.max_messages := by
  unfold add_message
  dsimp only
  rw [maybe_max, trim_max]
  split
  · rfl
  · exact goc_max fresh now (some sid) st

theorem add_message_bounded (fresh : String) (now : ℚ) (sid : String) (msg : ChatMessage)
    (st : MemoryState) (hmax : 2 ≤ st.max_messages)
    (h : SessionsBounded st.max_messages st) :
    SessionsBounded st.max_messages (add_message fresh now sid msg st) := by
  unfold add_message
  dsimp only
  split
  · apply maybe_bounded
    have hpre : ∀ p ∈ dupdate sid
        (fun s => { s with messages := s.messages ++ [msg], last_accessed := now })
        st.sessions, p.1 = sid ∨ p.2.messages.length ≤ st.max_messages := by
      intro p hp
      rcases mem_dupdate_cases hp with hp | ⟨q, hq, hqk, hpq⟩
      · exact Or.inr (h p hp.1)
      · rw [hpq]
        exact Or.inl hqk
    exact trim_bounded sid _ hmax hpre
  · have hmaxg := goc_max fresh now (some sid) st
    rw [← hmaxg]
    apply maybe_bounded
    have hb1 : SessionsBounded st.max_messages
        (get_or_create_session fresh now (some sid) st).2 :=
      goc_bounded fresh now (some sid) h
    have hpre : ∀ p ∈ dupdate (get_or_create_session fresh now (some sid) st).1
        (fun s => { s with messages := s.messages ++ [msg], last_accessed := now })
        (get_or_create_session fresh now (some sid) st).2.sessions,
        p.1 = (get_or_create_session fresh now (some sid) st).1
        ∨ p.2.messages.length
            ≤ (get_or_create_session fresh now (some sid) st).2.max_messages := by
      intro p hp
      rcases mem_dupdate_cases hp with hp | ⟨q, hq, hqk, hpq⟩
      · exact Or.inr (hmaxg ▸ hb1 p hp.1)
      · rw [hpq]
        exact Or.inl hqk
    exact trim_bounded _ _ (hmaxg ▸ hmax) hpre

theorem runAppends_bounded (fresh : String) (now : ℚ) :
    ∀ (ops : List (Bool × String × String)) (st : MemoryState),
      2 ≤ st.max_messages → SessionsBounded st.max_messages st →
      SessionsBounded (runAppends fresh now ops st).max_messages
          (runAppends fresh now ops st)
      ∧ (runAppends fresh now ops st).max_messages = st.max_messages := by
  intro ops
  induction ops with
  | nil => exact fun st _ h2 => ⟨h2, rfl⟩
  | cons op rest ih =>
    intro st h1 h2
    have hrw : runAppends fresh now (op :: rest) st
        = runAppends fresh now rest
            (if op.1 then add_user_message fresh now op.2.1 op.2.2 st
             else add_ai_message fresh now op.2.1 op.2.2 st) := rfl
    by_cases hb : op.1 = true
    · rw [hrw, if_pos hb]
      have hmax := add_message_max fresh now op.2.1 (ChatMessage.human op.2.2) st
      have hbd := add_message_bounded fresh now op.2.1 (ChatMessage.human op.2.2) st h1 h2
      have := ih (add_user_message fresh now op.2.1 op.2.2 st)
        (by rw [show add_user_message fresh now op.2.1 op.2.2 st
              = add_message fresh now op.2.1 (ChatMessage.human op.2.2) st from rfl, hmax]
            exact h1)
        (by rw [show add_user_message fresh now op.2.1 op.2.2 st
              = add_message fresh now op.2.1 (ChatMessage.human op.2.2) st from rfl]
            rw [hmax]
            exact hbd)
      exact ⟨this.1, by rw [this.2]; exact hmax⟩
    · rw [hrw, if_neg hb]
      have hmax := add_message_max fresh now op.2.1 (ChatMessage.ai op.2.2) st
      have hbd := add_message_bounded fresh now op.2.1 (ChatMessage.ai op.2.2) st h1 h2
      have := ih (add_ai_message fresh now op.2.1 op.2.2 st)
        (by rw [show add_ai_message fresh now op.2.1 op.2.2 st
              = add_message fresh now op.2.1 (ChatMessage.ai op.2.2) st from rfl, hmax]
            exact h1)
        (by rw [show add_ai_message fresh now op.2.1 op.2.2 st
              = add_message fresh now op.2.1 (ChatMessage.ai op.2.2) st from rfl]
            rw [hmax]
            exact hbd)
      exact ⟨this.1, by rw [this.2]; exact hmax⟩

/-! ### C2: the trimming invariants -/

/-- C2: with `max_messages ≥ 2`: (a) after any sequence of append calls
every session of the store holds at most `max_messages` messages (and the
limit itself never changes); (b) a single trim removes an even number of
messages, except at the boundary where removing the even target would
leave fewer than 2 messages (there the session is cut to exactly 2);
(c) trimming never reduces a session below 2 messages. -/
theorem session_trim_spec (st : MemoryState) (fresh : String) (now : ℚ)
    (ops : List (Bool × String × String)) (l : List ChatMessage) (maxM : ℕ)
    (hmax : 2 ≤ maxM) (hst : 2 ≤ st.max_messages)
    (hinv : SessionsBounded st.max_messages st) :
    SessionsBounded (runAppends fresh now ops st).max_messages
        (runAppends fresh now ops st)
    ∧ (runAppends fresh now ops st).max_messages = st.max_messages
    ∧ (trimList maxM l).length ≤ maxM
    ∧ (((l.length - (trimList maxM l).length) % 2 = 0)
        ∨ (l.length < evenTrimTarget l.length maxM + 2 ∧ (trimList maxM l).length = 2))
    ∧ min l.length 2 ≤ (trimList maxM l).length := by
  have hrun := runAppends_bounded fresh now ops st hst hinv
  exact ⟨hrun.1, hrun.2, trimList_length_le maxM l hmax,
    trimList_even_removed maxM l, trimList_min_two maxM l⟩

/-- A sample session record. -/
def mkSession (msgs : List ChatMessage) (t : ℚ) : Session :=
  { messages := msgs, created_at := t, last_accessed := t }

/-- A sample manager state with two sessions. -/
def sampleState : MemoryState :=
  { sessions := [("a", mkSession [] 0), ("b", mkSession [ChatMessage.human "hi"] 10)],
    max_messages := 20, session_timeout := 5, auto_cleanup_interval := 100,
    operation_count := 0, total_cleanups := 0, total_expired_removed := 0 }

/-- Witness for C2: one user-message append on the sample state, and the
trim arithmetic on a three-message list with a limit of 2. -/
theorem session_trim_spec_witness :
    (runAppends "F" 12 [(true, "a", "hello")] sampleState).max_messages
      = sampleState.max_messages
    ∧ (trimList 2 [ChatMessage.human "x", ChatMessage.human "y",
        ChatMessage.human "z"]).length ≤ 2
    ∧ min ([ChatMessage.human "x", ChatMessage.human "y",
        ChatMessage.human "z"]).length 2
        ≤ (trimList 2 [ChatMessage.human "x", ChatMessage.human "y",
            ChatMessage.human "z"]).length := by
  have h := session_trim_spec sampleState "F" 12 [(true, "a", "hello")]
    [ChatMessage.human "x", ChatMessage.human "y", ChatMessage.human "z"] 2
    (by omega) (by simp [sampleState])
    (by
      intro p hp
      simp only [sampleState] at hp
      rcases List.mem_cons.mp hp with hp | hp
      · rw [hp]; simp [mkSession, sampleState]
      · rcases List.mem_cons.mp hp with hp | hp
        · rw [hp]; simp [mkSession, sampleState]
        · simp at hp)
  exact ⟨h.2.1, h.2.2.1, h.2.2.2.2⟩

/-! ### C8: expiry and the cleanup sweep -/

theorem dlookup_of_mem_nodup [DecidableEq κ] {l : List (κ × β)}
    (hnd : (l.map (fun p => p.1)).Nodup) {k : κ} {v : β} (h : (k, v) ∈ l) :
    dlookup k l = some v := by
  induction l with
  | nil => simp at h
  | cons q rest ih =>
    simp only [List.map_cons, List.nodup_cons] at hnd
    rcases List.mem_cons.mp h with h | h
    · rw [← h, dlookup_cons, if_pos rfl]
    · have hq : ¬ q.1 = k := by
        intro hq
        exact hnd.1 (hq ▸ List.mem_map.mpr ⟨(k, v), h, rfl⟩)
      rw [dlookup_cons, if_neg hq]
      exact ih hnd.2 h

theorem length_filter_partition (p : α → Bool) (l : List α) :
    (l.filter p).length + (l.filter (fun a => !p a)).length = l.length := by
  induction l with
  | nil => rfl
  | cons x xs ih =>
    by_cases hx : p x = true
    · rw [List.filter_cons_of_pos hx, List.filter_cons_of_neg (by simp [hx])]
      simp only [List.length_cons]
      omega
    · rw [List.filter_cons_of_neg hx, List.filter_cons_of_pos (by simp [hx])]
      simp only [List.length_cons]
      omega

/-- C8: (a) a session whose `last_accessed` lies further in the past than
the timeout is absent from `list_active_sessions`; (b) after
`cleanup_expired_sessions` no session with `now - last_accessed ≥ timeout`
remains; (c) the sweep returns exactly the number of sessions it
removed. -/
theorem session_expiry (now : ℚ) (st : MemoryState)
    (hnd : (st.sessions.map (fun p => p.1)).Nodup) :
    (∀ sid s, (sid, s) ∈ st.sessions →
        st.session_timeout < now - s.last_accessed →
        sid ∉ list_active_sessions now st)
    ∧ (∀ p ∈ (cleanup_expired_sessions now st).2.sessions,
        now - p.2.last_accessed < st.session_timeout)
    ∧ (cleanup_expired_sessions now st).1
        + (cleanup_expired_sessions now st).2.sessions.length
        = st.sessions.length := by
  refine ⟨?_, ?_, ?_⟩
  · intro sid s hmem hexp hactive
    unfold list_active_sessions at hactive
    rcases List.mem_map.mp hactive with ⟨p, hpf, hp1⟩
    have hpmem := (List.mem_filter.mp hpf).1
    have hpcond := (List.mem_filter.mp hpf).2
    have hlook : dlookup sid st.sessions = some s := dlookup_of_mem_nodup hnd hmem
    have hps : p.2 = s := eq_of_mem_dlookup_nodup hnd hlook p hpmem hp1
    rw [hps] at hpcond
    simp only [decide_eq_true_eq] at hpcond
    linarith
  · intro p hp
    rw [cleanup_sessions_eq] at hp
    have := (List.mem_filter.mp hp).2
    simp only [Bool.not_eq_true', decide_eq_false_iff_not, not_le] at this
    exact this
  · rw [cleanup_fst_eq, cleanup_sessions_eq]
    exact length_filter_partition _ _

/-- Witness for C8 on the sample state at time `12`: the session "a"
(last accessed at `0`, timeout `5`) is not listed active, and the removed
count plus the surviving count is the original session count. -/
theorem session_expiry_witness :
    ("a" ∉ list_active_sessions 12 sampleState)
    ∧ ((cleanup_expired_sessions 12 sampleState).1
        + (cleanup_expired_sessions 12 sampleState).2.sessions.length
        = sampleState.sessions.length) := by
  have h := session_expiry 12 sampleState (by simp [sampleState])
  refine ⟨h.1 "a" (mkSession [] 0) (by simp [sampleState]) ?_, h.2.2⟩
  norm_num [sampleState, mkSession]

/-! ### C4: `get_or_create_session` and caller-supplied ids -/

/-- State after `self.operation_count += 1`. -/
def bumpOp (st : MemoryState) : MemoryState :=
  { st with operation_count := st.operation_count + 1 }

/-- Replace the session dictionary of a state. -/
def setSessions (l : List (String × Session)) (st : MemoryState) : MemoryState :=
  { st with sessions := l }

theorem maybe_no_sweep (now : ℚ) (st : MemoryState)
    (hop : st.operation_count + 1 < st.auto_cleanup_interval) :
    maybe_auto_cleanup false now st = (0, bumpOp st) := by
  unfold maybe_auto_cleanup bumpOp
  dsimp only
  rw [if_neg]
  simp only [Bool.false_or, decide_eq_true_eq]
  omega

/-- A state with no sessions. -/
def emptyState : MemoryState :=
  { sessions := [], max_messages := 20, session_timeout := 3600,
    auto_cleanup_interval := 100, operation_count := 0, total_cleanups := 0,
    total_expired_removed := 0 }

/-- Counterexample to C4 as stated: supplying the unknown, non-empty id
"s1" to `get_or_create_session` creates the new session under "s1"
itself, not under the fresh id "FRESH". -/
theorem get_or_create_unknown_cex :
    (get_or_create_session "FRESH" 0 (some "s1") emptyState).1 = "s1"
    ∧ dlookup "s1" (get_or_create_session "FRESH" 0 (some "s1") emptyState).2.sessions
        = some (newSession 0)
    ∧ "s1" ≠ "FRESH" := by
  refine ⟨rfl, rfl, by decide⟩

/-- C4 (amended): after the periodic-cleanup bookkeeping (assumed not to
fire), `get_or_create_session` (i) refreshes `last_accessed` and returns
the same id when the supplied id exists; (ii) creates the new session
under the supplied id when it is non-empty but unknown; (iii) allocates
the fresh id only when no id is supplied. -/
theorem get_or_create_spec (fresh : String) (now : ℚ) (st : MemoryState)
    (hop : st.operation_count + 1 < st.auto_cleanup_interval) :
    (∀ sid s, sid ≠ "" → dlookup sid st.sessions = some s →
        get_or_create_session fresh now (some sid) st
          = (sid, setSessions
              (dupdate sid (fun x => { x with last_accessed := now }) st.sessions)
              (bumpOp st)))
    ∧ (∀ sid, sid ≠ "" → dlookup sid st.sessions = none →
        get_or_create_session fresh now (some sid) st
          = (sid, setSessions (st.sessions ++ [(sid, newSession now)]) (bumpOp st)))
    ∧ get_or_create_session fresh now none st
        = (fresh, setSessions (dinsert fresh (newSession now) st.sessions)
            (bumpOp st)) := by
  refine ⟨?_, ?_, ?_⟩
  · intro sid s hsid hlook
    unfold get_or_create_session
    rw [maybe_no_sweep now st hop]
    dsimp only
    rw [if_pos ⟨hsid, by rw [show (bumpOp st).sessions = st.sessions from rfl, hlook]; rfl⟩]
    rfl
  · intro sid hsid hlook
    unfold get_or_create_session
    rw [maybe_no_sweep now st hop]
    have hlook2 : dlookup sid (bumpOp st).sessions = none := hlook
    simp [hsid, hlook, hlook2, dinsert, setSessions, bumpOp]
  · unfold get_or_create_session
    rw [maybe_no_sweep now st hop]
    rfl

/-- Witness for C4 on the sample state: the known id "b" is returned
unchanged, the unknown id "zzz" is kept as the new session's id. -/
theorem get_or_create_spec_witness :
    (get_or_create_session "FRESH" 12 (some "b") sampleState).1 = "b"
    ∧ (get_or_create_session "FRESH" 12 (some "zzz") sampleState).1 = "zzz" := by
  have h := get_or_create_spec "FRESH" 12 sampleState (by norm_num [sampleState])
  constructor
  · rw [h.1 "b" (mkSession [ChatMessage.human "hi"] 10) (by decide) (by decide)]
  · rw [h.2.1 "zzz" (by decide) (by decide)]

/-! ### C10: history of an unknown session id -/

/-- C10: requesting the conversation history of a session id absent from
the store returns the empty list and leaves the state completely
unchanged: no session is created, no `last_accessed` is refreshed, and the
operation counter driving the periodic cleanup is not incremented. -/
theorem absent_history_noop (now : ℚ) (sid : String) (st : MemoryState)
    (h : dlookup sid st.sessions = none) :
    get_conversation_history now sid st = (some [], st) := by
  unfold get_conversation_history
  rw [h]

/-- Witness for C10: the unknown id "zzz" on the sample state. -/
theorem absent_history_noop_witness :
    get_conversation_history 12 "zzz" sampleState = (some [], sampleState) :=
  absent_history_noop 12 "zzz" sampleState (by decide)
